import Mathlib

set_option maxHeartbeats 1000000

/-!
Shallow embedding of the algorithmic core of the repository:
`src/utils/min_norm_solvers.py` (class `MGDASolver` and
`gradient_normalizers`), `src/defences/cka.py` (linear CKA and the
`FedAvgCKA.filter_and_aggregate` keep-set logic) and the loss-balancing
control flow of `Attack.compute_blind_loss` in `src/attack.py`.

Python float scalars are modelled as exact rationals wherever the source
computes with field operations only; the operations that need a square root
(`torch.sqrt`, `math.sqrt`) are modelled over the reals.
-/

/-- One task gradient `vecs[i]`: the list of per-parameter tensors, each
flattened to a list of scalars. -/
abbrev TaskGrad := List (List ℚ)

/-- `MGDASolver._min_norm_element_from2` (min_norm_solvers.py lines 12-34):
analytic minimiser of the squared norm of `c*x1 + (1-c)*x2` over `c`, given
the Gram entries `v1v1 = <x1,x1>`, `v1v2 = <x1,x2>`, `v2v2 = <x2,x2>`. -/
def min_norm_element_from2 (v1v1 v1v2 v2v2 : ℚ) : ℚ × ℚ :=
  if v1v1 ≤ v1v2 then
    (0.999, v1v1)
  else if v2v2 ≤ v1v2 then
    (0.001, v2v2)
  else
    let gamma : ℚ := -1 * ((v1v2 - v2v2) / (v1v1 + v2v2 - 2 * v1v2))
    (gamma, v2v2 + gamma * (v1v2 - v2v2))

/-- `torch.dot` of two flattened tensors, modelled on lists. -/
def dotList (a b : List ℚ) : ℚ := (List.zipWith (fun x y => x * y) a b).sum

/-- Gram entry `dps[(i,j)]`: the sum over the per-parameter tensors `k` of
`torch.dot(vecs[i][k].view(-1), vecs[j][k].view(-1))`
(min_norm_solvers.py lines 48-63).  The cache `dps` is write-once and holds
exactly these values, so it is modelled as this pure function. -/
def gram (vecs : List TaskGrad) (i j : Nat) : ℚ :=
  (List.zipWith dotList (vecs.getD i []) (vecs.getD j [])).sum

/-- The index pairs `(i, j)` with `i < j < n`, in the order the double loop
of `_min_norm_2d` (lines 46-47) visits them. -/
def pairList (n : Nat) : List (Nat × Nat) :=
  ((List.range n).map
    (fun i => ((List.range n).filter (fun j => i < j)).map (fun j => (i, j)))).flatten

/-- `MGDASolver._min_norm_2d` (lines 36-70): best two-point solution over all
pairs.  `dmin` starts at `1e8` and `sol` at the integer `0`; `sol` is
replaced only when a pair cost is strictly below the current `dmin`, so when
every pair cost is at least `1e8` (or there is no pair) the Python function
returns the integer `0`, on which the callers crash when indexing
`init_sol[0][0]`.  The `none` value models that outcome. -/
def min_norm_2d (vecs : List TaskGrad) : Option ((Nat × Nat) × ℚ × ℚ) :=
  (pairList vecs.length).foldl
    (fun acc p =>
      let cd := min_norm_element_from2
        (gram vecs p.1 p.1) (gram vecs p.1 p.2) (gram vecs p.2 p.2)
      let dmin : ℚ :=
        match acc with
        | none => 1e8
        | some best => best.2.2
      if cd.2 < dmin then some (p, cd) else acc)
    none

/-- The break-search of `_projection2simplex` (lines 79-86): walk the
descending-sorted list, accumulate `tmpsum`, and return the first
`tmax = (tmpsum - 1)/(i+1)` that strictly exceeds the next element, if any. -/
def projGo : List ℚ → ℚ → Nat → Option ℚ
  | a :: b :: rest, acc, i =>
    let acc2 := acc + a
    let tmax := (acc2 - 1) / ((i : ℚ) + 1)
    if b < tmax then some tmax else projGo (b :: rest) acc2 (i + 1)
  | _, _, _ => none

/-- `MGDASolver._projection2simplex` (lines 72-87): Euclidean projection of
`y` onto the probability simplex.  `np.flip(np.sort(y), axis=0)` is modelled
as ascending insertion sort followed by `reverse`. -/
def projection2simplex (y : List ℚ) : List ℚ :=
  let sorted_y := (List.insertionSort (fun a b => a ≤ b) y).reverse
  let tmax_f :=
    match projGo sorted_y 0 0 with
    | some t => t
    | none => (y.sum - 1) / (y.length : ℚ)
  y.map (fun v => max (v - tmax_f) 0)

/-- `MGDASolver._next_point` (lines 89-104).  The dead local `skippers` of
line 95 is omitted. -/
def next_point (cur_val grad : List ℚ) (n : Nat) : List ℚ :=
  let proj_grad := grad.map (fun g => g - grad.sum / (n : ℚ))
  let tm1 := (List.zip cur_val proj_grad).filterMap
    (fun cp => if cp.2 < 0 then some (-1 * cp.1 / cp.2) else none)
  let tm2 := (List.zip cur_val proj_grad).filterMap
    (fun cp => if 0 < cp.2 then some ((1 - cp.1) / cp.2) else none)
  let t1 := tm1.filter (fun x => 1e-7 < x)
  let t2 := tm2.filter (fun x => 1e-7 < x)
  let ta : ℚ :=
    match t1.min? with
    | some v => v
    | none => 1
  let t : ℚ :=
    match t2.min? with
    | some v => min ta v
    | none => ta
  projection2simplex (List.zipWith (fun p c => p * t + c) proj_grad cur_val)

/-- `grad_dir = -1.0 * np.dot(grad_mat, sol_vec)` (line 137), with
`grad_mat[i, j] = dps[(i, j)]` (lines 131-134). -/
def pgGradDir (G : Nat → Nat → ℚ) (n : Nat) (sol_vec : List ℚ) : List ℚ :=
  (List.range n).map
    (fun i => -1 * ((List.range n).map (fun j => G i j * sol_vec.getD j 0)).sum)

/-- The line-search inner products of lines 140-147: the accumulation
`sum_i sum_j x[i] * y[j] * dps[(i, j)]`. -/
def pgQuad (G : Nat → Nat → ℚ) (n : Nat) (x y : List ℚ) : ℚ :=
  ((List.range n).map (fun i =>
    ((List.range n).map (fun j => x.getD i 0 * y.getD j 0 * G i j)).sum)).sum

/-- `new_sol_vec = nc * sol_vec + (1 - nc) * new_point` (line 152). -/
def pgNewSol (nc : ℚ) (sol_vec new_point : List ℚ) : List ℚ :=
  List.zipWith (fun a b => nc * a + (1 - nc) * b) sol_vec new_point

/-- `np.sum(np.abs(new_sol_vec - sol_vec))` (lines 155-156). -/
def pgChange (new_sol_vec sol_vec : List ℚ) : ℚ :=
  ((List.zipWith (fun a b => a - b) new_sol_vec sol_vec).map (fun x => |x|)).sum

/-- The convergence loop of `find_min_norm_element` (lines 136-158), with
explicit fuel.  The Python guard is `while iter_count < MGDASolver.MAX_ITER`,
but `iter_count` is never incremented inside the loop, so the guard never
becomes false and the loop stops only via the `STOP_CRIT` test.  `fuel`
counts executed loop iterations; `none` means the loop has not returned
within `fuel` iterations. -/
def pgLoop (G : Nat → Nat → ℚ) (n : Nat) : Nat → List ℚ → Option (List ℚ × ℚ)
  | 0, _ => none
  | fuel + 1, sol_vec =>
    let new_point := next_point sol_vec (pgGradDir G n sol_vec) n
    let ncnd := min_norm_element_from2 (pgQuad G n sol_vec sol_vec)
      (pgQuad G n sol_vec new_point) (pgQuad G n new_point new_point)
    let new_sol_vec := pgNewSol ncnd.1 sol_vec new_point
    if pgChange new_sol_vec sol_vec < 1e-5 then some (sol_vec, ncnd.2)
    else pgLoop G n fuel new_sol_vec

/-- `MGDASolver.find_min_norm_element` (lines 106-158).  `fuel` bounds the
number of convergence-loop iterations that may run (the source loop has no
effective cap, see `pgLoop`); `none` models either the crash when
`_min_norm_2d` returns the integer `0`, or a run that has not returned
within `fuel` loop iterations. -/
def find_min_norm_element (fuel : Nat) (vecs : List TaskGrad) : Option (List ℚ × ℚ) :=
  match min_norm_2d vecs with
  | none => none
  | some init_sol =>
    let n := vecs.length
    let sol_vec := (List.range n).map (fun k =>
      if k = init_sol.1.1 then init_sol.2.1
      else if k = init_sol.1.2 then 1 - init_sol.2.1 else 0)
    if n < 3 then some (sol_vec, init_sol.2.2)
    else pgLoop (gram vecs) n fuel sol_vec

/-- `MGDASolver.find_min_norm_element_FW` (lines 160-212).  At lines 178-180
the source checks `if not isinstance(init_sol, tuple) or len(init_sol) != 3`
and returns `(np.ones(len(vecs)) / len(vecs), 1.0)` when the check fires.
`_min_norm_2d` returns either a Python `list` `[(i, j), c, d]` (line 69) or
the integer `0` (line 45), never a `tuple`, so `isinstance(init_sol, tuple)`
is `False` on every input and the equal-weights fallback is returned
unconditionally; the seed and the Frank-Wolfe loop of lines 182-212 are
unreachable. -/
def find_min_norm_element_FW (vecs : List TaskGrad) : List ℚ × ℚ :=
  (List.replicate vecs.length (1 / (vecs.length : ℚ)), 1)

/-- Row means `sim.mean(1)` of the similarity matrix (cka.py line 60), with
the `m x m` matrix modelled as a list of rows. -/
def rowMeans (sim : List (List ℚ)) : List ℚ :=
  sim.map (fun r => r.sum / (r.length : ℚ))

/-- `torch.quantile(values, q)` with the default linear interpolation: with
`s` the ascending sort of the `m` values, the result is
`s[l] + (s[l+1] - s[l]) * (pos - l)` where `pos = q*(m-1)` and `l` is the
floor of `pos` (clamped to the last element when `l+1 = m`). -/
def torchQuantile (values : List ℚ) (q : ℚ) : ℚ :=
  let s := List.insertionSort (fun a b => a ≤ b) values
  let m := values.length
  let pos := q * ((m : ℚ) - 1)
  let l := (⌊pos⌋).toNat
  if l + 1 < m then s.getD l 0 + (s.getD (l + 1) 0 - s.getD l 0) * (pos - (l : ℚ))
  else s.getD (m - 1) 0

/-- The keep-set logic of `FedAvgCKA.filter_and_aggregate` (cka.py lines
60-67), taking the already-built similarity matrix (its construction runs
torch models, which are outside the embeddable core; the claims about this
method quantify over the matrix).  Keep the clients whose row-mean
similarity is at least the `drop`-quantile of the row means; if no client
passes, fall back to keeping all of them — the source never raises on an
empty keep-set. -/
def filter_and_aggregate_keep (sim : List (List ℚ)) (drop : ℚ) : List Nat :=
  let mean := rowMeans sim
  let threshold := torchQuantile mean drop
  let keep_idx := (List.range sim.length).filter (fun i => threshold ≤ mean.getD i 0)
  if keep_idx.isEmpty then List.range sim.length else keep_idx

/-- Mean of the loss history, `np.mean(self.loss_hist)`.  An empty history
yields `nan` in the source and `0` here; the gate below treats both alike,
because the `len < 1000` disjunct already fires for an empty history. -/
def histMean (hist : List ℚ) : ℚ := hist.sum / (hist.length : ℚ)

/-- The active-task selection of `Attack.compute_blind_loss` (attack.py
lines 49 and 58-60): start from the configured tasks when `attack` is set
(else `[normal]`), then force `[normal]` when a loss threshold is
configured (Python truthiness: `None` and `0.0` are falsy) and the mean
historical loss is at least the threshold or fewer than 1000 samples are
recorded. -/
def selectLossTasks (attack : Bool) (configuredTasks : List String)
    (lossThreshold : Option ℚ) (lossHist : List ℚ) : List String :=
  let loss_tasks := if attack then configuredTasks else ["normal"]
  match lossThreshold with
  | none => loss_tasks
  | some th =>
    if th ≠ 0 ∧ (th ≤ histMean lossHist ∨ lossHist.length < 1000) then ["normal"]
    else loss_tasks

/-- The scale-selection control flow of `Attack.compute_blind_loss`
(attack.py lines 62-96).  The external loss computation
`compute_all_losses_and_grads` does not influence which branch raises, so
the MGDA and fixed scale dictionaries are abstracted as inputs; the
single-task override of lines 95-96 is included.  The `ValueError` of line
93 is modelled as the `Except.error` case. -/
def computeScales (loss_tasks : List String) (loss_balance : String)
    (fixedScales : String → ℚ) (mgdaScales : String → ℚ) :
    Except String (List (String × ℚ)) :=
  let branch : Except String (List (String × ℚ)) :=
    if loss_tasks.length = 1 then Except.ok []
    else if loss_balance = "MGDA" then
      Except.ok (if 1 < loss_tasks.length then
        loss_tasks.map (fun t => (t, mgdaScales t)) else [])
    else if loss_balance = "fixed" then
      Except.ok (loss_tasks.map (fun t => (t, fixedScales t)))
    else Except.error "Please choose between `MGDA` and `fixed`."
  match branch with
  | Except.error e => Except.error e
  | Except.ok scale =>
    if loss_tasks.length = 1 then Except.ok [(loss_tasks.headD "", 1)]
    else Except.ok scale

noncomputable section RealValued

/-- `torch.sqrt(torch.stack([gr.pow(2).sum() for gr in grads[t]]).sum())`
(min_norm_solvers.py lines 232-233): the l2 norm of the concatenation of
one task's per-parameter gradient tensors. -/
def l2NormOfGrads (gs : List (List ℝ)) : ℝ :=
  Real.sqrt ((gs.map (fun g => (g.map (fun x => x ^ 2)).sum)).sum)

/-- `losses[t].mean()` of a per-task loss tensor. -/
def lossMean (xs : List ℝ) : ℝ := xs.sum / (xs.length : ℝ)

/-- `gradient_normalizers` (min_norm_solvers.py lines 228-248).  `grads` is
the ordered dict of per-task gradient tensor lists, `losses` the per-task
loss tensors; the result dict keeps the key order of `grads`.  An unknown
normalization type raises `ValueError`. -/
def gradient_normalizers (grads : List (String × List (List ℝ)))
    (losses : String → List ℝ) (normalization_type : String) :
    Except String (List (String × ℝ)) :=
  if normalization_type = "l2" then
    Except.ok (grads.map (fun p => (p.1, l2NormOfGrads p.2)))
  else if normalization_type = "loss" then
    Except.ok (grads.map (fun p => (p.1, min (lossMean (losses p.1)) 10)))
  else if normalization_type = "loss+" then
    Except.ok (grads.map (fun p =>
      (p.1, min (lossMean (losses p.1) * l2NormOfGrads p.2) 10)))
  else if normalization_type = "none" ∨ normalization_type = "eq" then
    Except.ok (grads.map (fun p => (p.1, 1)))
  else Except.error "ERROR: Invalid Normalization Type"

/-- `_center(A)` (cka.py line 7): subtract the per-column mean (`A.mean(0)`)
from every row; `A` has one row per reference example. -/
def center {n p : ℕ} (A : Fin n → Fin p → ℝ) : Fin n → Fin p → ℝ :=
  fun i j => A i j - (∑ k, A k j) / (n : ℝ)

/-- The linear-kernel Gram matrix `Xc @ Xc.T` of cka.py line 11. -/
def gramR {n p : ℕ} (X : Fin n → Fin p → ℝ) : Fin n → Fin n → ℝ :=
  fun i j => ∑ t, center X i t * center X j t

/-- `_hsic(K, L)` (cka.py line 8): `torch.trace(K @ L) / ((n-1)**2 + 1e-12)`. -/
def hsic {n : ℕ} (K L : Fin n → Fin n → ℝ) : ℝ :=
  (∑ i, ∑ j, K i j * L j i) / (((n : ℝ) - 1) ^ 2 + 1e-12)

/-- `cka(X, Y)` (cka.py lines 9-12): centred linear CKA of two activation
matrices with the same number `n` of rows (reference examples) and possibly
different feature dimensions. -/
def cka {n p q : ℕ} (X : Fin n → Fin p → ℝ) (Y : Fin n → Fin q → ℝ) : ℝ :=
  hsic (gramR X) (gramR Y) /
    Real.sqrt (hsic (gramR X) (gramR X) * hsic (gramR Y) (gramR Y) + 1e-12)

end RealValued

/-- C1: the two-point exact solver returns exactly per the three cases: if
`v12 ≥ v11` then `γ = 0.999` and cost `v11`; else if `v12 ≥ v22` then
`γ = 0.001` and cost `v22`; else `γ = -(v12-v22)/(v11+v22-2*v12)` and cost
`v22 + γ*(v12-v22)` — for every triple of (rational-modelled) inputs. -/
theorem min_norm_element_from2_cases (v11 v12 v22 : ℚ) :
    min_norm_element_from2 v11 v12 v22 =
      if v12 ≥ v11 then ((0.999 : ℚ), v11)
      else if v12 ≥ v22 then ((0.001 : ℚ), v22)
      else (-(v12 - v22) / (v11 + v22 - 2 * v12),
            v22 + (-(v12 - v22) / (v11 + v22 - 2 * v12)) * (v12 - v22)) := by
  unfold min_norm_element_from2
  split_ifs with h1 h2 <;>
    first
      | rfl
      | (refine Prod.ext ?_ ?_ <;> ring_nf)

/-- C2 (counterevidence): on the two-task input `g1 = [1,0]`, `g2 = [0,2]`
the Frank-Wolfe entry point never returns the two-point seed: the
`isinstance(init_sol, tuple)` guard of line 178 fires on the list returned
by `_min_norm_2d`, so the function returns the equal-weights fallback
`([1/2, 1/2], 1.0)`, while the seed — which `find_min_norm_element` does
return for `n = 2` — is `([4/5, 1/5], 4/5)`, matching
`_min_norm_element_from2` on the Gram entries `(1, 0, 4)`. -/
theorem find_min_norm_element_FW_always_fallback :
    find_min_norm_element_FW [[[1, 0]], [[0, 2]]] = ([1/2, 1/2], 1) ∧
    find_min_norm_element 0 [[[1, 0]], [[0, 2]]] = some ([4/5, 1/5], 4/5) ∧
    min_norm_element_from2 1 0 4 = (4/5, 4/5) ∧
    find_min_norm_element_FW [[[1, 0]], [[0, 2]]] ≠ ([4/5, 1/5], 4/5) := by
  refine ⟨?_, ?_, ?_, ?_⟩ <;> with_unfolding_all decide

/-- `trace(K @ L)`-based HSIC is symmetric in its two arguments. -/
theorem hsic_comm {n : ℕ} (K L : Fin n → Fin n → ℝ) : hsic K L = hsic L K := by
  unfold hsic
  congr 1
  rw [Finset.sum_comm]
  exact Finset.sum_congr rfl fun j _ => Finset.sum_congr rfl fun i _ => mul_comm _ _

/-- C6: the CKA similarity function is symmetric: for all activation
matrices `X` and `Y` with the same number of rows, `cka X Y = cka Y X`. -/
theorem cka_symm {n p q : ℕ} (X : Fin n → Fin p → ℝ) (Y : Fin n → Fin q → ℝ) :
    cka X Y = cka Y X := by
  unfold cka
  rw [hsic_comm (gramR X) (gramR Y), mul_comm]

/-- C7: whenever a loss threshold is configured (truthy) and the mean
historical `normal` loss is at or above the threshold or fewer than 1000
historical samples exist, the active task set is forced to `[normal]`,
regardless of the configured multi-task list and the attack flag. -/
theorem selectLossTasks_forces_normal (attack : Bool)
    (configuredTasks : List String) (th : ℚ) (hist : List ℚ) (hth : th ≠ 0)
    (hgate : th ≤ histMean hist ∨ hist.length < 1000) :
    selectLossTasks attack configuredTasks (some th) hist = ["normal"] := by
  have hc : th ≠ 0 ∧ (th ≤ histMean hist ∨ hist.length < 1000) := ⟨hth, hgate⟩
  simp [selectLossTasks, hc]

/-- Witness for C7 at a concrete input: threshold `1`, empty history. -/
theorem selectLossTasks_forces_normal_witness :
    (1 : ℚ) ≠ 0 ∧ ([] : List ℚ).length < 1000 ∧
      selectLossTasks true ["normal", "backdoor"] (some 1) [] = ["normal"] :=
  ⟨by norm_num, by decide,
    selectLossTasks_forces_normal true ["normal", "backdoor"] 1 []
      (by norm_num) (Or.inr (by decide))⟩

/-- C9 (counterexample): a call with the unrecognized balancing mode
`bogus` but a single active task returns the constant scale `1.0` and
raises no error: the single-task branch of lines 62-66 and 95-96 never
inspects the mode string, so no `ValueError` is reached. -/
theorem computeScales_single_task_no_error :
    computeScales ["normal"] "bogus" (fun _ => 0) (fun _ => 0) =
      Except.ok [("normal", 1)] ∧
    ∀ e, computeScales ["normal"] "bogus" (fun _ => 0) (fun _ => 0) ≠
      Except.error e := by
  refine ⟨rfl, fun e he => ?_⟩
  rw [show computeScales ["normal"] "bogus" (fun _ => 0) (fun _ => 0) =
      Except.ok [("normal", 1)] from rfl] at he
  exact Except.noConfusion he

/-- C9 (amended): whenever more than one loss task is active, a balancing
mode other than `MGDA` and `fixed` raises the configuration `ValueError`
immediately. -/
theorem computeScales_bad_balance_error (tasks : List String)
    (balance : String) (f g : String → ℚ) (h2 : 2 ≤ tasks.length)
    (hm : balance ≠ "MGDA") (hf : balance ≠ "fixed") :
    computeScales tasks balance f g =
      Except.error "Please choose between `MGDA` and `fixed`." := by
  have h1 : tasks.length ≠ 1 := by omega
  simp [computeScales, h1, hm, hf]

/-- Witness for the amended C9 at a concrete input: two active tasks and
the mode `bananas`. -/
theorem computeScales_bad_balance_error_witness :
    computeScales ["normal", "backdoor"] "bananas" (fun _ => 0) (fun _ => 0) =
      Except.error "Please choose between `MGDA` and `fixed`." :=
  computeScales_bad_balance_error ["normal", "backdoor"] "bananas"
    (fun _ => 0) (fun _ => 0) (by decide) (by decide) (by decide)

/-- C8 (counterexample): in the `l2` mode a task whose only gradient tensor
is all zeros gets the normalizer `sqrt 0 = 0`, which is not positive. -/
theorem gradient_normalizers_l2_zero_not_positive :
    gradient_normalizers [("normal", [[(0 : ℝ)]])] (fun _ => []) "l2" =
      Except.ok [("normal", 0)] ∧ ¬ (0 : ℝ) < 0 := by
  constructor
  · simp [gradient_normalizers, l2NormOfGrads]
  · exact lt_irrefl 0

/-- C8 (amended): for a mode in `{l2, loss, loss+, none, eq}` the function
returns a scalar normalizer for every task, keyed like `grads`, with the
`l2` normalizer nonnegative (zero when all of a task's gradients vanish)
and the `none`/`eq` normalizer the constant `1.0`; any other mode string
fails with the configuration `ValueError`. -/
theorem gradient_normalizers_modes (grads : List (String × List (List ℝ)))
    (losses : String → List ℝ) (nt : String) :
    ((nt = "l2" ∨ nt = "loss" ∨ nt = "loss+" ∨ nt = "none" ∨ nt = "eq") →
      ∃ gn, gradient_normalizers grads losses nt = Except.ok gn ∧
        gn.map Prod.fst = grads.map Prod.fst ∧
        (nt = "l2" → ∀ q ∈ gn, 0 ≤ q.2) ∧
        ((nt = "none" ∨ nt = "eq") → ∀ q ∈ gn, q.2 = 1)) ∧
    ((nt ≠ "l2" ∧ nt ≠ "loss" ∧ nt ≠ "loss+" ∧ nt ≠ "none" ∧ nt ≠ "eq") →
      gradient_normalizers grads losses nt =
        Except.error "ERROR: Invalid Normalization Type") := by
  constructor
  · rintro (rfl | rfl | rfl | rfl | rfl)
    · have hgn : gradient_normalizers grads losses "l2" =
          Except.ok (grads.map (fun p => (p.1, l2NormOfGrads p.2))) := rfl
      refine ⟨grads.map (fun p => (p.1, l2NormOfGrads p.2)), hgn, ?_, ?_, ?_⟩
      · simp [List.map_map, Function.comp]
      · rintro - q hq
        obtain ⟨p, -, rfl⟩ := List.mem_map.mp hq
        exact Real.sqrt_nonneg _
      · rintro (h | h) <;> simp at h
    · have hgn : gradient_normalizers grads losses "loss" =
          Except.ok (grads.map (fun p => (p.1, min (lossMean (losses p.1)) 10))) := rfl
      refine ⟨grads.map (fun p => (p.1, min (lossMean (losses p.1)) 10)), hgn, ?_, ?_, ?_⟩
      · simp [List.map_map, Function.comp]
      · rintro h; simp at h
      · rintro (h | h) <;> simp at h
    · have hgn : gradient_normalizers grads losses "loss+" =
          Except.ok (grads.map (fun p =>
            (p.1, min (lossMean (losses p.1) * l2NormOfGrads p.2) 10))) := rfl
      refine ⟨grads.map (fun p => (p.1, min (lossMean (losses p.1) * l2NormOfGrads p.2) 10)),
        hgn, ?_, ?_, ?_⟩
      · simp [List.map_map, Function.comp]
      · rintro h; simp at h
      · rintro (h | h) <;> simp at h
    · have hgn : gradient_normalizers grads losses "none" =
          Except.ok (grads.map (fun p => (p.1, 1))) := rfl
      refine ⟨grads.map (fun p => (p.1, 1)), hgn, ?_, ?_, ?_⟩
      · simp [List.map_map, Function.comp]
      · rintro h; simp at h
      · rintro - q hq
        obtain ⟨p, -, rfl⟩ := List.mem_map.mp hq
        rfl
    · have hgn : gradient_normalizers grads losses "eq" =
          Except.ok (grads.map (fun p => (p.1, 1))) := rfl
      refine ⟨grads.map (fun p => (p.1, 1)), hgn, ?_, ?_, ?_⟩
      · simp [List.map_map, Function.comp]
      · rintro h; simp at h
      · rintro - q hq
        obtain ⟨p, -, rfl⟩ := List.mem_map.mp hq
        rfl
  · rintro ⟨h1, h2, h3, h4, h5⟩
    simp [gradient_normalizers, h1, h2, h3, h4, h5]

/-- Witness for the amended C8: the `l2` mode on one task with the single
gradient tensor `[1]`. -/
theorem gradient_normalizers_modes_witness :
    ∃ gn, gradient_normalizers [("normal", [[(1 : ℝ)]])] (fun _ => []) "l2" =
        Except.ok gn ∧
      gn.map Prod.fst = [("normal", [[(1 : ℝ)]])].map Prod.fst ∧
      (("l2" : String) = "l2" → ∀ q ∈ gn, 0 ≤ q.2) ∧
      ((("l2" : String) = "none" ∨ ("l2" : String) = "eq") →
        ∀ q ∈ gn, q.2 = 1) :=
  (gradient_normalizers_modes [("normal", [[(1 : ℝ)]])] (fun _ => []) "l2").1
    (Or.inl rfl)

/-- Sum of the convex blend `nc * a + (1 - nc) * b` taken pointwise over two
lists of equal length. -/
theorem sum_zipWith_blend (c : ℚ) :
    ∀ (xs ys : List ℚ), xs.length = ys.length →
      (List.zipWith (fun a b => c * a + (1 - c) * b) xs ys).sum =
        c * xs.sum + (1 - c) * ys.sum
  | [], [], _ => by simp
  | [], _ :: _, h => by simp at h
  | _ :: _, [], h => by simp at h
  | x :: xs, y :: ys, h => by
    simp only [List.zipWith_cons_cons, List.sum_cons]
    rw [sum_zipWith_blend c xs ys (by simpa using h)]
    ring

/-- Every element of a `zipWith` is the image of elements of the inputs. -/
theorem mem_zipWith_imp {α β γ : Type} (f : α → β → γ) :
    ∀ (xs : List α) (ys : List β) (z : γ), z ∈ List.zipWith f xs ys →
      ∃ a ∈ xs, ∃ b ∈ ys, z = f a b
  | [], _, z, h => by simp at h
  | _ :: _, [], z, h => by simp at h
  | x :: xs, y :: ys, z, h => by
    rcases List.mem_cons.mp h with h | h
    · exact ⟨x, List.mem_cons_self .., y, List.mem_cons_self .., h⟩
    · obtain ⟨a, ha, b, hb, rfl⟩ := mem_zipWith_imp f xs ys z h
      exact ⟨a, List.mem_cons_of_mem _ ha, b, List.mem_cons_of_mem _ hb, rfl⟩

/-- Clipping at zero kills a list that lies entirely below the threshold. -/
theorem clip_sum_zero (θ : ℚ) :
    ∀ (l : List ℚ), (∀ x ∈ l, x ≤ θ) → (l.map (fun v => max (v - θ) 0)).sum = 0
  | [], _ => rfl
  | x :: l, h => by
    simp only [List.map_cons, List.sum_cons]
    rw [clip_sum_zero θ l (fun y hy => h y (List.mem_cons_of_mem _ hy)),
      max_eq_right (by have := h x (List.mem_cons_self ..); linarith)]
    simp

/-- Sum of a constant shift. -/
theorem map_sub_sum (θ : ℚ) : ∀ (l : List ℚ),
    (l.map (fun v => v - θ)).sum = l.sum - (l.length : ℚ) * θ
  | [] => by simp
  | x :: l => by
    simp only [List.map_cons, List.sum_cons, List.length_cons]
    rw [map_sub_sum θ l]
    push_cast
    ring

/-- When the break-search of `_projection2simplex` finds no break, the final
threshold `(sum - 1)/m` is dominated by every element: the inductive bound
`acc + sum - 1 ≤ (i + len) * x` holds for every element `x` of the
descending suffix. -/
theorem projGo_none_bound :
    ∀ (l : List ℚ) (a acc : ℚ) (i : ℕ),
      (a :: l).Pairwise (fun x y => y ≤ x) →
      acc - 1 ≤ (i : ℚ) * a →
      projGo (a :: l) acc i = none →
      ∀ x ∈ a :: l, acc + (a :: l).sum - 1 ≤ ((i : ℚ) + ((a :: l).length : ℚ)) * x
  | [], a, acc, i, _, hinv, _ => by
    intro x hx
    rcases List.mem_cons.mp hx with rfl | hx
    · simp only [List.sum_cons, List.sum_nil, List.length_cons, List.length_nil]
      push_cast
      linarith
    · simp at hx
  | b :: rest, a, acc, i, hp, hinv, hgo => by
    have hia : (0 : ℚ) < (i : ℚ) + 1 := by positivity
    have hb : ¬ b < (acc + a - 1) / ((i : ℚ) + 1) := by
      intro hb
      simp [projGo, hb] at hgo
    have hrec : projGo (b :: rest) (acc + a) (i + 1) = none := by
      simpa [projGo, hb] using hgo
    have hble : acc + a - 1 ≤ ((i : ℚ) + 1) * b := by
      rw [not_lt, div_le_iff₀ hia] at hb
      linarith
    have hba : b ≤ a := (List.pairwise_cons.mp hp).1 b (List.mem_cons_self ..)
    have hpt : (b :: rest).Pairwise (fun x y => y ≤ x) := (List.pairwise_cons.mp hp).2
    have hinv2 : acc + a - 1 ≤ ((i + 1 : ℕ) : ℚ) * b := by push_cast; linarith
    have IH := projGo_none_bound rest b (acc + a) (i + 1) hpt hinv2 hrec
    intro x hx
    rcases List.mem_cons.mp hx with rfl | hx
    · have hbmem := IH b (List.mem_cons_self ..)
      simp only [List.sum_cons, List.length_cons] at hbmem ⊢
      push_cast at hbmem ⊢
      nlinarith [hbmem, mul_le_mul_of_nonneg_left hba
        (by positivity : (0 : ℚ) ≤ (i : ℚ) + ((rest.length : ℚ) + 1 + 1))]
    · have hxm := IH x hx
      simp only [List.sum_cons, List.length_cons] at hxm ⊢
      push_cast at hxm ⊢
      linarith

/-- When the break-search of `_projection2simplex` returns `θ`, the clipped
shift of the descending suffix sums to `1 - acc + i * θ`, and `θ` is below
the suffix head. -/
theorem projGo_some_spec :
    ∀ (l : List ℚ) (a acc : ℚ) (i : ℕ) (θ : ℚ),
      (a :: l).Pairwise (fun x y => y ≤ x) →
      acc - 1 ≤ (i : ℚ) * a →
      projGo (a :: l) acc i = some θ →
      θ ≤ a ∧ ((a :: l).map (fun v => max (v - θ) 0)).sum = 1 - acc + (i : ℚ) * θ
  | [], a, acc, i, θ, _, _, hgo => by simp [projGo] at hgo
  | b :: rest, a, acc, i, θ, hp, hinv, hgo => by
    have hia : (0 : ℚ) < (i : ℚ) + 1 := by positivity
    have hba : b ≤ a := (List.pairwise_cons.mp hp).1 b (List.mem_cons_self ..)
    have hpt : (b :: rest).Pairwise (fun x y => y ≤ x) := (List.pairwise_cons.mp hp).2
    by_cases hb : b < (acc + a - 1) / ((i : ℚ) + 1)
    · have hθ : θ = (acc + a - 1) / ((i : ℚ) + 1) := by
        simp [projGo, hb] at hgo
        exact hgo.symm
      subst hθ
      have hmul : ((i : ℚ) + 1) * ((acc + a - 1) / ((i : ℚ) + 1)) = acc + a - 1 :=
        mul_div_cancel₀ _ (ne_of_gt hia)
      have hθa : (acc + a - 1) / ((i : ℚ) + 1) ≤ a := by
        rw [div_le_iff₀ hia]
        linarith
      refine ⟨hθa, ?_⟩
      have hallb : ∀ x ∈ b :: rest, x ≤ (acc + a - 1) / ((i : ℚ) + 1) := by
        intro x hx
        rcases List.mem_cons.mp hx with rfl | hx
        · exact le_of_lt hb
        · exact le_trans ((List.pairwise_cons.mp hpt).1 x hx) (le_of_lt hb)
      rw [List.map_cons, List.sum_cons,
        show (List.map (fun v => max (v - (acc + a - 1) / ((i : ℚ) + 1)) 0)
            (b :: rest)).sum = 0 from clip_sum_zero _ _ hallb,
        max_eq_left (by linarith)]
      linarith
    · have hrec : projGo (b :: rest) (acc + a) (i + 1) = some θ := by
        simpa [projGo, hb] using hgo
      have hble : acc + a - 1 ≤ ((i : ℚ) + 1) * b := by
        rw [not_lt, div_le_iff₀ hia] at hb
        linarith
      have hinv2 : acc + a - 1 ≤ ((i + 1 : ℕ) : ℚ) * b := by push_cast; linarith
      obtain ⟨hθb, hsum⟩ := projGo_some_spec rest b (acc + a) (i + 1) θ hpt hinv2 hrec
      have hθa : θ ≤ a := le_trans hθb hba
      refine ⟨hθa, ?_⟩
      simp only [List.map_cons, List.sum_cons] at hsum ⊢
      rw [max_eq_left (by linarith)]
      push_cast at hsum
      linarith

/-- The descending sort used by `_projection2simplex` is pairwise
descending. -/
theorem sortedDesc (y : List ℚ) :
    ((List.insertionSort (fun a b => a ≤ b) y).reverse).Pairwise
      (fun x z => z ≤ x) := by
  rw [List.pairwise_reverse]
  exact List.sorted_insertionSort (fun a b => a ≤ b) y

/-- `_projection2simplex` preserves the length. -/
theorem projection2simplex_length (y : List ℚ) :
    (projection2simplex y).length = y.length := by
  simp [projection2simplex]

/-- Every coordinate of `_projection2simplex` is nonnegative
(`np.maximum(..., 0)`). -/
theorem projection2simplex_nonneg (y : List ℚ) :
    ∀ x ∈ projection2simplex y, 0 ≤ x := by
  intro x hx
  simp only [projection2simplex, List.mem_map] at hx
  obtain ⟨v, -, rfl⟩ := hx
  exact le_max_right _ _

/-- In exact arithmetic the output of `_projection2simplex` sums to `1` for
every nonempty input. -/
theorem projection2simplex_sum (y : List ℚ) (hy : 1 ≤ y.length) :
    (projection2simplex y).sum = 1 := by
  have hperm : List.Perm ((List.insertionSort (fun a b => a ≤ b) y).reverse) y :=
    (List.reverse_perm _).trans (List.perm_insertionSort _ y)
  have hpair := sortedDesc y
  simp only [projection2simplex]
  generalize hs_eq : (List.insertionSort (fun a b => a ≤ b) y).reverse = s
  rw [hs_eq] at hperm hpair
  have hlen : s.length = y.length := hperm.length_eq
  have hsum : s.sum = y.sum := hperm.sum_eq
  have hmapsum : ∀ t : ℚ,
      (y.map (fun v => max (v - t) 0)).sum = (s.map (fun v => max (v - t) 0)).sum :=
    fun t => ((hperm.map _).sum_eq).symm
  obtain ⟨a, l, rfl⟩ : ∃ a l, s = a :: l := by
    cases hseq : s with
    | nil => rw [hseq] at hlen; simp at hlen; omega
    | cons a l => exact ⟨a, l, rfl⟩
  cases hgo : projGo (a :: l) 0 0 with
  | some θ =>
    simp only [hgo]
    obtain ⟨-, hsum1⟩ := projGo_some_spec l a 0 0 θ hpair (by simp) hgo
    rw [hmapsum θ, hsum1]
    simp
  | none =>
    simp only [hgo]
    have hylen : (0 : ℚ) < (y.length : ℚ) := by
      exact_mod_cast lt_of_lt_of_le Nat.zero_lt_one hy
    have hbound := projGo_none_bound l a 0 0 hpair (by simp) hgo
    have hymem : ∀ x ∈ y, (y.sum - 1) / (y.length : ℚ) ≤ x := by
      intro x hx
      have hxs : x ∈ a :: l := hperm.mem_iff.mpr hx
      have hb := hbound x hxs
      rw [div_le_iff₀ hylen]
      have hls : (a :: l).sum = y.sum := hsum
      have hll : (((a :: l).length : ℕ) : ℚ) = (y.length : ℚ) := by
        exact_mod_cast congrArg (fun m => ((m : ℕ) : ℚ)) hlen
      rw [hls, hll] at hb
      push_cast at hb
      ring_nf at hb ⊢
      linarith
    have hcong : y.map (fun v => max (v - (y.sum - 1) / (y.length : ℚ)) 0) =
        y.map (fun v => v - (y.sum - 1) / (y.length : ℚ)) :=
      List.map_congr_left (fun v hv => max_eq_left (by
        have := hymem v hv
        linarith))
    rw [hcong, map_sub_sum]
    field_simp

/-- The mixing coefficient returned by `_min_norm_element_from2` always lies
in `[0, 1]`: the degenerate branches return `0.999` and `0.001`, and in the
interior branch the closed form is a ratio of positive quantities below 1. -/
theorem from2_gamma_bounds (a b c : ℚ) :
    0 ≤ (min_norm_element_from2 a b c).1 ∧ (min_norm_element_from2 a b c).1 ≤ 1 := by
  simp only [min_norm_element_from2]
  split_ifs with h1 h2
  · constructor <;> norm_num
  · constructor <;> norm_num
  · push_neg at h1 h2
    have hd : (0 : ℚ) < a + c - 2 * b := by linarith
    have heq : -1 * ((b - c) / (a + c - 2 * b)) = (c - b) / (a + c - 2 * b) := by
      ring
    constructor
    · simp only [heq]
      exact div_nonneg (by linarith) (le_of_lt hd)
    · simp only [heq]
      rw [div_le_one hd]
      linarith

/-- `_next_point` preserves the length `n` of the weight vector. -/
theorem next_point_length (cur grad : List ℚ) (n : Nat)
    (h1 : cur.length = n) (h2 : grad.length = n) :
    (next_point cur grad n).length = n := by
  simp [next_point, projection2simplex_length, h1, h2]

/-- `_next_point` lands on the simplex: its output sums to 1. -/
theorem next_point_sum (cur grad : List ℚ) (n : Nat)
    (h1 : cur.length = n) (h2 : grad.length = n) (hn : 1 ≤ n) :
    (next_point cur grad n).sum = 1 := by
  simp only [next_point]
  apply projection2simplex_sum
  simp [h1, h2]
  omega

/-- `_next_point` output coordinates are nonnegative. -/
theorem next_point_nonneg (cur grad : List ℚ) (n : Nat) :
    ∀ x ∈ next_point cur grad n, 0 ≤ x := by
  simp only [next_point]
  exact projection2simplex_nonneg _

/-- Simplex invariant of the convergence loop of `find_min_norm_element`:
whatever the Gram matrix, any weight vector the loop returns has length
`n`, sums exactly to 1 and is coordinatewise nonnegative, provided the
starting vector does. -/
theorem pgLoop_inv (G : Nat → Nat → ℚ) (n : Nat) (hn : 1 ≤ n) :
    ∀ (fuel : Nat) (sol : List ℚ), sol.length = n → sol.sum = 1 →
      (∀ x ∈ sol, 0 ≤ x) →
      ∀ w c, pgLoop G n fuel sol = some (w, c) →
        w.length = n ∧ w.sum = 1 ∧ ∀ x ∈ w, 0 ≤ x
  | 0, sol, _, _, _, w, c, h => by simp [pgLoop] at h
  | fuel + 1, sol, hlen, hsum, hpos, w, c, h => by
    rw [pgLoop] at h
    split at h
    · obtain ⟨rfl, rfl⟩ : sol = w ∧ _ := by
        injection h with h1
        injection h1 with h2 h3
        exact ⟨h2, h3⟩
      exact ⟨hlen, hsum, hpos⟩
    · have hglen : (pgGradDir G n sol).length = n := by simp [pgGradDir]
      have hnp_len := next_point_length sol (pgGradDir G n sol) n hlen hglen
      have hnp_sum := next_point_sum sol (pgGradDir G n sol) n hlen hglen hn
      have hnp_pos := next_point_nonneg sol (pgGradDir G n sol) n
      set np := next_point sol (pgGradDir G n sol) n
      set nc := (min_norm_element_from2 (pgQuad G n sol sol)
        (pgQuad G n sol np) (pgQuad G n np np)).1 with hnc_def
      obtain ⟨hnc0, hnc1⟩ := from2_gamma_bounds (pgQuad G n sol sol)
        (pgQuad G n sol np) (pgQuad G n np np)
      rw [← hnc_def] at hnc0 hnc1
      have hns_len : (pgNewSol nc sol np).length = n := by
        simp [pgNewSol, hlen, hnp_len]
      have hns_sum : (pgNewSol nc sol np).sum = 1 := by
        rw [pgNewSol, sum_zipWith_blend nc sol np (by rw [hlen, hnp_len]),
          hsum, hnp_sum]
        ring
      have hns_pos : ∀ x ∈ pgNewSol nc sol np, 0 ≤ x := by
        intro x hx
        obtain ⟨u, hu, v, hv, rfl⟩ := mem_zipWith_imp _ sol np x hx
        have hu0 := hpos u hu
        have hv0 := hnp_pos v hv
        have h1 : 0 ≤ nc * u := mul_nonneg hnc0 hu0
        have h2 : 0 ≤ (1 - nc) * v := mul_nonneg (by linarith) hv0
        linarith
      exact pgLoop_inv G n hn fuel (pgNewSol nc sol np) hns_len hns_sum hns_pos w c h

/-- Sum over `range n` of an indicator at `i < n`. -/
theorem sum_map_single (a : ℚ) :
    ∀ (n i : Nat), i < n →
      ((List.range n).map (fun k => if k = i then a else 0)).sum = a := by
  intro n
  induction n with
  | zero => omega
  | succ n ih =>
    intro i hi
    rw [List.range_succ, List.map_append, List.sum_append]
    by_cases h : i = n
    · subst h
      have hz : ((List.range i).map (fun k => if k = i then a else 0)).sum = 0 := by
        apply List.sum_eq_zero
        intro x hx
        obtain ⟨k, hk, rfl⟩ := List.mem_map.mp hx
        have : k ≠ i := Nat.ne_of_lt (List.mem_range.mp hk)
        simp [this]
      simp [hz]
    · have hi' : i < n := by omega
      rw [ih i hi']
      have : n ≠ i := fun hh => h hh.symm
      simp [this]

/-- Splitting a pointwise sum of two functions under `map`. -/
theorem sum_map_add (f g : ℕ → ℚ) :
    ∀ (l : List ℕ), (l.map (fun k => f k + g k)).sum = (l.map f).sum + (l.map g).sum
  | [] => by simp
  | x :: l => by
    simp only [List.map_cons, List.sum_cons, sum_map_add f g l]
    ring

/-- The sum of the two-point seed `sol_vec[i] = a`, `sol_vec[j] = b` over
`range n`. -/
theorem seed_sum (n i j : Nat) (hij : i ≠ j) (hi : i < n) (hj : j < n) (a b : ℚ) :
    ((List.range n).map (fun k => if k = i then a else if k = j then b else 0)).sum
      = a + b := by
  have hfun : ∀ k ∈ List.range n,
      (if k = i then a else if k = j then b else 0) =
        (fun k => (if k = i then a else 0) + (if k = j then b else 0)) k := by
    intro k _
    by_cases h1 : k = i
    · subst h1
      simp [hij]
    · simp [h1]
  rw [List.map_congr_left hfun, sum_map_add, sum_map_single a n i hi,
    sum_map_single b n j hj]

/-- Index pairs produced by the `_min_norm_2d` double loop satisfy
`i < j < n`. -/
theorem pairList_mem (n i j : Nat) (h : (i, j) ∈ pairList n) : i < j ∧ j < n := by
  simp only [pairList, List.mem_flatten, List.mem_map] at h
  obtain ⟨l, ⟨i0, hi0, rfl⟩, hmem⟩ := h
  obtain ⟨j0, hj0, hpair⟩ := List.mem_map.mp hmem
  obtain ⟨hj0r, hij0⟩ := List.mem_filter.mp hj0
  obtain ⟨rfl, rfl⟩ : i0 = i ∧ j0 = j := by
    have h1 := congrArg Prod.fst hpair
    have h2 := congrArg Prod.snd hpair
    exact ⟨h1, h2⟩
  exact ⟨by simpa using hij0, List.mem_range.mp hj0r⟩

/-- The fold of `_min_norm_2d` only ever stores a visited pair together
with the exact `_min_norm_element_from2` output for that pair. -/
theorem min_norm_2d_fold_inv (vecs : List TaskGrad) :
    ∀ (ps : List (Nat × Nat)) (acc : Option ((Nat × Nat) × ℚ × ℚ)),
      (∀ q ∈ ps, q ∈ pairList vecs.length) →
      (∀ r, acc = some r → r.1 ∈ pairList vecs.length ∧
        r.2 = min_norm_element_from2 (gram vecs r.1.1 r.1.1)
          (gram vecs r.1.1 r.1.2) (gram vecs r.1.2 r.1.2)) →
      ∀ r, ps.foldl
        (fun acc p =>
          let cd := min_norm_element_from2
            (gram vecs p.1 p.1) (gram vecs p.1 p.2) (gram vecs p.2 p.2)
          let dmin : ℚ :=
            match acc with
            | none => 1e8
            | some best => best.2.2
          if cd.2 < dmin then some (p, cd) else acc) acc = some r →
        r.1 ∈ pairList vecs.length ∧
        r.2 = min_norm_element_from2 (gram vecs r.1.1 r.1.1)
          (gram vecs r.1.1 r.1.2) (gram vecs r.1.2 r.1.2)
  | [], acc, _, hacc, r, h => hacc r h
  | q :: ps, acc, hps, hacc, r, h => by
    simp only [List.foldl_cons] at h
    refine min_norm_2d_fold_inv vecs ps _
      (fun p hp => hps p (List.mem_cons_of_mem _ hp)) ?_ r h
    intro r' hr'
    split at hr'
    · obtain rfl : (q, min_norm_element_from2 (gram vecs q.1 q.1)
          (gram vecs q.1 q.2) (gram vecs q.2 q.2)) = r' := by
        injection hr'
      exact ⟨hps q (List.mem_cons_self ..), rfl⟩
    · exact hacc r' hr'

/-- What `_min_norm_2d` returns: a visited pair `(i, j)` with `i < j < n`,
together with the two-point solver output on its Gram entries. -/
theorem min_norm_2d_mem (vecs : List TaskGrad) (p : Nat × Nat) (γ d : ℚ)
    (h : min_norm_2d vecs = some (p, γ, d)) :
    p ∈ pairList vecs.length ∧
    (γ, d) = min_norm_element_from2 (gram vecs p.1 p.1)
      (gram vecs p.1 p.2) (gram vecs p.2 p.2) := by
  have := min_norm_2d_fold_inv vecs (pairList vecs.length) none
    (fun q hq => hq) (by intro r hr; cases hr) (p, γ, d) h
  exact this

/-- C3: for any set of `n ≥ 2` task gradient vectors, any weight vector
that `find_min_norm_element` returns (the scales of `get_scales` are
exactly its coordinates) satisfies `sum(w) ≈ 1` within `1e-4` and
`w[i] ≥ -1e-6` in every coordinate — in the exact-arithmetic model the sum
is exactly 1 and every coordinate is nonnegative, for every fuel bound. -/
theorem find_min_norm_element_simplex_bounds (vecs : List TaskGrad)
    (fuel : Nat) (w : List ℚ) (c : ℚ) (hn : 2 ≤ vecs.length)
    (h : find_min_norm_element fuel vecs = some (w, c)) :
    |w.sum - 1| ≤ 1e-4 ∧ ∀ x ∈ w, -(1e-6 : ℚ) ≤ x := by
  suffices hs : w.sum = 1 ∧ ∀ x ∈ w, 0 ≤ x by
    obtain ⟨h1, h2⟩ := hs
    constructor
    · rw [h1]
      norm_num
    · intro x hx
      have h3 := h2 x hx
      have h4 : (0 : ℚ) ≤ 1e-6 := by norm_num
      linarith
  rw [find_min_norm_element] at h
  cases hmn : min_norm_2d vecs with
  | none =>
    rw [hmn] at h
    simp at h
  | some init =>
    obtain ⟨⟨i, j⟩, γ, d⟩ := init
    rw [hmn] at h
    dsimp only at h
    obtain ⟨hpair, hgd⟩ := min_norm_2d_mem vecs (i, j) γ d hmn
    obtain ⟨hij, hjn⟩ := pairList_mem vecs.length i j hpair
    have hγeq : γ = (min_norm_element_from2 (gram vecs i i)
        (gram vecs i j) (gram vecs j j)).1 := by
      have := congrArg Prod.fst hgd
      simpa using this
    obtain ⟨hγ0, hγ1⟩ : 0 ≤ γ ∧ γ ≤ 1 := by
      rw [hγeq]
      exact from2_gamma_bounds _ _ _
    have hseedlen : ((List.range vecs.length).map (fun k =>
        if k = i then γ else if k = j then 1 - γ else 0)).length = vecs.length := by
      simp
    have hseedsum : ((List.range vecs.length).map (fun k =>
        if k = i then γ else if k = j then 1 - γ else 0)).sum = 1 := by
      rw [seed_sum vecs.length i j (Nat.ne_of_lt hij) (lt_trans hij hjn) hjn]
      ring
    have hseedpos : ∀ x ∈ (List.range vecs.length).map (fun k =>
        if k = i then γ else if k = j then 1 - γ else 0), 0 ≤ x := by
      intro x hx
      obtain ⟨k, -, rfl⟩ := List.mem_map.mp hx
      by_cases h1 : k = i
      · simp [h1, hγ0]
      · by_cases h2 : k = j
        · have hji : j ≠ i := fun hh => absurd hh.symm (Nat.ne_of_lt hij)
          simp [h1, h2, hji]
          linarith
        · simp [h1, h2]
    split at h
    · obtain ⟨rfl, rfl⟩ : (List.range vecs.length).map (fun k =>
          if k = i then γ else if k = j then 1 - γ else 0) = w ∧ d = c := by
        injection h with h1
        injection h1 with h2 h3
        exact ⟨h2, h3⟩
      exact ⟨hseedsum, hseedpos⟩
    · exact (pgLoop_inv (gram vecs) vecs.length (by omega) fuel _
        hseedlen hseedsum hseedpos w c h).2

/-- Witness for C3: two orthogonal one-tensor gradients; the solver returns
the seed `([1/2, 1/2], 1/2)` immediately. -/
theorem find_min_norm_element_simplex_bounds_witness :
    (2 ≤ ([[[1, 0]], [[0, 1]]] : List TaskGrad).length) ∧
    (find_min_norm_element 0 [[[1, 0]], [[0, 1]]] = some ([1/2, 1/2], 1/2)) ∧
    (|([(1 : ℚ)/2, 1/2].sum - 1)| ≤ 1e-4 ∧
      ∀ x ∈ [(1 : ℚ)/2, 1/2], -(1e-6 : ℚ) ≤ x) :=
  ⟨by decide, by with_unfolding_all decide,
    find_min_norm_element_simplex_bounds [[[1, 0]], [[0, 1]]] 0 [1/2, 1/2] (1/2)
      (by decide) (by with_unfolding_all decide)⟩

/-- C5: over `m ≥ 1` client updates, the kept clients are exactly those
whose self-inclusive row-mean similarity is at least the `drop`-quantile of
the mean vector; when that keep-set is empty all `m` clients are kept
instead; the keep computation is total, so an empty keep-set never raises
an error. -/
theorem filter_and_aggregate_keep_spec (sim : List (List ℚ)) (drop : ℚ)
    (hm : 1 ≤ sim.length) :
    (((List.range sim.length).filter
        (fun i => torchQuantile (rowMeans sim) drop ≤ (rowMeans sim).getD i 0)) ≠ [] →
      ∀ i, i ∈ filter_and_aggregate_keep sim drop ↔
        i < sim.length ∧
          torchQuantile (rowMeans sim) drop ≤ (rowMeans sim).getD i 0) ∧
    (((List.range sim.length).filter
        (fun i => torchQuantile (rowMeans sim) drop ≤ (rowMeans sim).getD i 0)) = [] →
      filter_and_aggregate_keep sim drop = List.range sim.length) := by
  constructor
  · intro hne i
    simp only [filter_and_aggregate_keep]
    rw [if_neg (by simpa using hne)]
    simp [List.mem_filter, List.mem_range]
  · intro he
    simp only [filter_and_aggregate_keep]
    rw [if_pos (by simpa using he)]

/-- Witness for C5 at a concrete one-client round. -/
theorem filter_and_aggregate_keep_spec_witness :
    ((((List.range ([[(1 : ℚ)]] : List (List ℚ)).length).filter
        (fun i => torchQuantile (rowMeans [[(1 : ℚ)]]) (1/2) ≤
          (rowMeans [[(1 : ℚ)]]).getD i 0)) ≠ [] →
      ∀ i, i ∈ filter_and_aggregate_keep [[(1 : ℚ)]] (1/2) ↔
        i < ([[(1 : ℚ)]] : List (List ℚ)).length ∧
          torchQuantile (rowMeans [[(1 : ℚ)]]) (1/2) ≤
            (rowMeans [[(1 : ℚ)]]).getD i 0) ∧
    ((((List.range ([[(1 : ℚ)]] : List (List ℚ)).length).filter
        (fun i => torchQuantile (rowMeans [[(1 : ℚ)]]) (1/2) ≤
          (rowMeans [[(1 : ℚ)]]).getD i 0)) = []) →
      filter_and_aggregate_keep [[(1 : ℚ)]] (1/2) =
        List.range ([[(1 : ℚ)]] : List (List ℚ)).length)) :=
  filter_and_aggregate_keep_spec [[(1 : ℚ)]] (1/2) (by decide)

/-- Monotonicity of indexing into an ascending-sorted list. -/
theorem sorted_getD_mono (s : List ℚ)
    (hs : List.Sorted (fun a b => a ≤ b) s) (k1 k2 : ℕ) (hk : k1 ≤ k2)
    (h2 : k2 < s.length) : s.getD k1 0 ≤ s.getD k2 0 := by
  have h1 : k1 < s.length := lt_of_le_of_lt hk h2
  rw [List.getD_eq_getElem s 0 h1, List.getD_eq_getElem s 0 h2]
  rcases eq_or_lt_of_le hk with rfl | hlt
  · exact le_refl _
  · exact hs.rel_get_of_lt (show (⟨k1, h1⟩ : Fin s.length) < ⟨k2, h2⟩ from hlt)

/-- The linear-interpolation quantile value of a sorted list never exceeds
its last element, for any interpolation position in `[0, m-1]`. -/
theorem quantile_interp_le_last (s : List ℚ)
    (hsort : List.Sorted (fun a b => a ≤ b) s) (m : ℕ) (hm : s.length = m)
    (hm1 : 1 ≤ m) (pos : ℚ) (hpos0 : 0 ≤ pos) (hpos1 : pos ≤ (m : ℚ) - 1) :
    (if (⌊pos⌋).toNat + 1 < m then
      s.getD (⌊pos⌋).toNat 0 +
        (s.getD ((⌊pos⌋).toNat + 1) 0 - s.getD (⌊pos⌋).toNat 0) *
          (pos - ((⌊pos⌋).toNat : ℚ))
     else s.getD (m - 1) 0) ≤ s.getD (m - 1) 0 := by
  have hfloor0 : 0 ≤ ⌊pos⌋ := Int.floor_nonneg.mpr hpos0
  have hlcast : (((⌊pos⌋).toNat : ℕ) : ℚ) = ((⌊pos⌋ : ℤ) : ℚ) := by
    exact_mod_cast congrArg (fun z => ((z : ℤ) : ℚ)) (Int.toNat_of_nonneg hfloor0)
  have hlle : (((⌊pos⌋).toNat : ℕ) : ℚ) ≤ pos := by
    rw [hlcast]
    exact Int.floor_le pos
  have hlt1 : pos < (((⌊pos⌋).toNat : ℕ) : ℚ) + 1 := by
    rw [hlcast]
    exact_mod_cast Int.lt_floor_add_one pos
  split
  case isTrue h =>
    have hmono := sorted_getD_mono s hsort (⌊pos⌋).toNat ((⌊pos⌋).toNat + 1)
      (by omega) (by omega)
    have hmono2 := sorted_getD_mono s hsort ((⌊pos⌋).toNat + 1) (m - 1)
      (by omega) (by omega)
    have hfrac0 : 0 ≤ pos - (((⌊pos⌋).toNat : ℕ) : ℚ) := by linarith
    have hfrac1 : pos - (((⌊pos⌋).toNat : ℕ) : ℚ) ≤ 1 := by linarith
    have hd : 0 ≤ s.getD ((⌊pos⌋).toNat + 1) 0 - s.getD (⌊pos⌋).toNat 0 := by
      linarith
    have hprod := mul_le_of_le_one_right hd hfrac1
    linarith
  case isFalse h => exact le_refl _

/-- With `drop ∈ [0, 1]`, the torch quantile of a nonempty list is bounded
by its maximum element. -/
theorem torchQuantile_le_max (values : List ℚ) (q : ℚ)
    (hne : 1 ≤ values.length) (hq0 : 0 ≤ q) (hq1 : q ≤ 1) :
    ∃ x ∈ values, torchQuantile values q ≤ x ∧ ∀ y ∈ values, y ≤ x := by
  have hsort := List.sorted_insertionSort (fun a b => a ≤ b) values
  have hperm := List.perm_insertionSort (fun a b => a ≤ b) values
  have hslen : (List.insertionSort (fun a b => a ≤ b) values).length =
      values.length := hperm.length_eq
  have hmQ : (1 : ℚ) ≤ (values.length : ℚ) := by exact_mod_cast hne
  have hpos0 : 0 ≤ q * ((values.length : ℚ) - 1) :=
    mul_nonneg hq0 (by linarith)
  have hpos1 : q * ((values.length : ℚ) - 1) ≤ (values.length : ℚ) - 1 := by
    nlinarith
  have hlast_lt : values.length - 1 <
      (List.insertionSort (fun a b => a ≤ b) values).length := by
    rw [hslen]
    omega
  refine ⟨(List.insertionSort (fun a b => a ≤ b) values).getD
    (values.length - 1) 0, ?_, ?_, ?_⟩
  · have hmem : (List.insertionSort (fun a b => a ≤ b) values).getD
        (values.length - 1) 0 ∈ List.insertionSort (fun a b => a ≤ b) values := by
      rw [List.getD_eq_getElem _ 0 hlast_lt]
      exact List.getElem_mem _
    exact hperm.subset hmem
  · have hq := quantile_interp_le_last (List.insertionSort (fun a b => a ≤ b) values)
      hsort values.length hslen hne (q * ((values.length : ℚ) - 1)) hpos0 hpos1
    simpa [torchQuantile] using hq
  · intro y hy
    have hys : y ∈ List.insertionSort (fun a b => a ≤ b) values :=
      hperm.symm.subset hy
    obtain ⟨⟨k, hk⟩, hgk⟩ := List.mem_iff_get.mp hys
    have hyD : (List.insertionSort (fun a b => a ≤ b) values).getD k 0 = y := by
      rw [List.getD_eq_getElem _ 0 hk]
      exact hgk
    rw [← hyD]
    exact sorted_getD_mono _ hsort k (values.length - 1)
      (by rw [hslen] at hk; omega) hlast_lt

/-- C10: for a nonempty round and `drop ∈ [0, 1]`, the pre-fallback keep
set of `filter_and_aggregate` is never empty — the client with maximal
row-mean similarity always passes the quantile threshold — so the
empty-keep-set fallback is unreachable and the returned `keep_idx`
contains an index of maximal mean similarity. -/
theorem filter_keep_nonempty_argmax (sim : List (List ℚ)) (drop : ℚ)
    (hm : 1 ≤ sim.length) (h0 : 0 ≤ drop) (h1 : drop ≤ 1) :
    ((List.range sim.length).filter
        (fun i => torchQuantile (rowMeans sim) drop ≤ (rowMeans sim).getD i 0)) ≠ [] ∧
    filter_and_aggregate_keep sim drop =
      (List.range sim.length).filter
        (fun i => torchQuantile (rowMeans sim) drop ≤ (rowMeans sim).getD i 0) ∧
    ∃ i ∈ filter_and_aggregate_keep sim drop, ∀ j < sim.length,
      (rowMeans sim).getD j 0 ≤ (rowMeans sim).getD i 0 := by
  have hlen : (rowMeans sim).length = sim.length := by simp [rowMeans]
  obtain ⟨x, hxmem, hqx, hxmax⟩ := torchQuantile_le_max (rowMeans sim) drop
    (by rw [hlen]; exact hm) h0 h1
  obtain ⟨⟨i, hi⟩, hgi⟩ := List.mem_iff_get.mp hxmem
  have hiD : (rowMeans sim).getD i 0 = x := by
    rw [List.getD_eq_getElem _ 0 hi]
    exact hgi
  have hisim : i < sim.length := by rw [← hlen]; exact hi
  have hikeep : i ∈ (List.range sim.length).filter
      (fun i => torchQuantile (rowMeans sim) drop ≤ (rowMeans sim).getD i 0) := by
    rw [List.mem_filter]
    refine ⟨List.mem_range.mpr hisim, ?_⟩
    rw [hiD]
    exact decide_eq_true hqx
  have hne : ((List.range sim.length).filter
      (fun i => torchQuantile (rowMeans sim) drop ≤ (rowMeans sim).getD i 0)) ≠ [] := by
    intro hemp
    rw [hemp] at hikeep
    exact absurd hikeep (List.not_mem_nil _)
  have hkeq : filter_and_aggregate_keep sim drop =
      (List.range sim.length).filter
        (fun i => torchQuantile (rowMeans sim) drop ≤ (rowMeans sim).getD i 0) := by
    simp only [filter_and_aggregate_keep]
    rw [if_neg (by simpa using hne)]
  refine ⟨hne, hkeq, i, ?_, ?_⟩
  · rw [hkeq]
    exact hikeep
  · intro j hj
    have hj' : j < (rowMeans sim).length := by rw [hlen]; exact hj
    have hjmem : (rowMeans sim).getD j 0 ∈ rowMeans sim := by
      rw [List.getD_eq_getElem _ 0 hj']
      exact List.getElem_mem _
    rw [hiD]
    exact hxmax _ hjmem

/-- Witness for C10 at a concrete two-client round with distinct means. -/
theorem filter_keep_nonempty_argmax_witness :
    (((List.range ([[(1 : ℚ), 0], [0, 1]] : List (List ℚ)).length).filter
        (fun i => torchQuantile (rowMeans [[(1 : ℚ), 0], [0, 1]]) (1/2) ≤
          (rowMeans [[(1 : ℚ), 0], [0, 1]]).getD i 0)) ≠ []) ∧
    filter_and_aggregate_keep [[(1 : ℚ), 0], [0, 1]] (1/2) =
      (List.range ([[(1 : ℚ), 0], [0, 1]] : List (List ℚ)).length).filter
        (fun i => torchQuantile (rowMeans [[(1 : ℚ), 0], [0, 1]]) (1/2) ≤
          (rowMeans [[(1 : ℚ), 0], [0, 1]]).getD i 0) ∧
    ∃ i ∈ filter_and_aggregate_keep [[(1 : ℚ), 0], [0, 1]] (1/2),
      ∀ j < ([[(1 : ℚ), 0], [0, 1]] : List (List ℚ)).length,
        (rowMeans [[(1 : ℚ), 0], [0, 1]]).getD j 0 ≤
          (rowMeans [[(1 : ℚ), 0], [0, 1]]).getD i 0 :=
  filter_keep_nonempty_argmax [[(1 : ℚ), 0], [0, 1]] (1/2)
    (by decide) (by norm_num) (by norm_num)

set_option maxRecDepth 8000000

set_option maxHeartbeats 40000000

/-- C4 (counterevidence): `iter_count` is never incremented inside either
solver loop, so the guard `iter_count < MAX_ITER` never becomes false and
the 250-iteration cap is dead code.  On the three-task input below, the
first 250 iterations of the `find_min_norm_element` convergence loop all
fail the `STOP_CRIT` test in exact arithmetic (the L1 change after
iteration 250 is still about `9.0e-5 > 1e-5`), so the source loop is still
running after 250 iterations — more than the claimed cap.  (The float run
converges only after 4057 iterations.) -/
theorem find_min_norm_element_exceeds_250_iterations :
    find_min_norm_element 250 [[[-17, 10, 16]], [[22, -29, 32]], [[-44, 34, 5]]] =
      none := by
  with_unfolding_all decide
